import Mathlib

/-
Verification of the candidate-representation and selection core of the
CL-Total-RDGA genetic algorithm (Rust sources: src/genetic/chromosome.rs and
src/genetic/selection.rs).  The Rust code is shallowly embedded: machine
integers become Nat, fallible operations (slice indexing, which panics on an
out-of-bounds index, and the final unwrap in tournament selection) become
Option, where a result of none models a panic/abort of the Rust code.
Randomness is made explicit: the random choice of a neighbour in
fix_chromosome is driven by a per-vertex oracle giving an arbitrary natural
number, and the random index draws of tournament selection are driven by a
per-tournament oracle giving an arbitrary traversal order of the population
indices.  Quantifying over these oracles quantifies over every possible
sequence of random choices.
-/

namespace CLTotalRDGA

/-- Modelled from the spec: the graph collaborator (SimpleGraph) is not part of
the two source files under verification; section 6 of the spec fixes exactly
the interface the core needs from it: vertex_count, and a neighbors lookup
that returns the adjacency list of a vertex or fails when the vertex is not
present in the graph. -/
structure SimpleGraph where
  vertex_count : Nat
  neighbors : Nat → Option (List Nat)

/-- Chromosome as in chromosome.rs: a gene buffer (Vec of u8, embedded as
List Nat) together with the eagerly computed fitness (usize, embedded as
Nat). -/
structure Chromosome where
  genes : List Nat
  fitness : Nat
deriving DecidableEq

/-- Chromosome::new: stores the genes and computes fitness as the sum of all
gene values (each u8 widened to usize before summing). -/
def Chromosome.new (genes : List Nat) : Chromosome :=
  { genes := genes, fitness := genes.sum }

/-- Embedding of the Rust iterator expression genes-slice any-with-predicate,
namely neighbors.iter().any with a predicate applied to genes at the visited
index.  Iteration short-circuits at the first hit; indexing genes outside its
bounds panics, modelled by none. -/
def anyP (genes : List Nat) (p : Nat → Bool) : List Nat → Option Bool
  | [] => some false
  | u :: rest =>
    match genes.get? u with
    | none => none
    | some x => if p x then some true else anyP genes p rest

/-- Modelled from the spec: SliceRandom::choose of the rand crate (an external
dependency) picks a uniformly random element of a slice, returning None
exactly when the slice is empty.  The randomness is supplied as the natural
number k; reducing it modulo the length selects an arbitrary element, so
quantifying over k covers every possible random outcome. -/
def choose (l : List Nat) (k : Nat) : Option Nat :=
  l.get? (k % l.length)

/-- Loop body chain of is_valid_to_total_roman_domination: processes the
remaining vertex ids in order, returning some false on a failed neighbor
lookup, a constraint violation or a malformed gene, none on an out-of-bounds
gene access (a Rust panic), and some true when every vertex passes. -/
def validGo (g : SimpleGraph) (genes : List Nat) : List Nat → Option Bool
  | [] => some true
  | v :: vs =>
    match g.neighbors v with
    | none => some false
    | some nbrs =>
      match genes.get? v with
      | none => none
      | some 0 =>
        match anyP genes (fun x => x == 2) nbrs with
        | none => none
        | some true => validGo g genes vs
        | some false => some false
      | some 1 | some 2 =>
        match anyP genes (fun x => decide (0 < x)) nbrs with
        | none => none
        | some true => validGo g genes vs
        | some false => some false
      | some _ => some false

/-- Chromosome::is_valid_to_total_roman_domination from chromosome.rs: checks
every vertex id in 0..graph.vertex_count in increasing order. -/
def Chromosome.is_valid_to_total_roman_domination (c : Chromosome) (g : SimpleGraph) :
    Option Bool :=
  validGo g c.genes (List.range g.vertex_count)

/-- Loop body chain of fix_chromosome: one pass over the remaining vertex ids,
mutating the working buffer as it goes.  A failed neighbor lookup skips the
vertex; a vertex labeled 0 with no neighbour labeled 2 relabels a randomly
chosen neighbour to 2; a vertex labeled 1 or 2 with no positively labeled
neighbour relabels a randomly chosen neighbour to 1; a malformed label is
reset to 0.  Out-of-bounds buffer accesses (Rust panics) yield none. -/
def fixGo (g : SimpleGraph) (pick : Nat → Nat) : List Nat → List Nat → Option (List Nat)
  | [], buf => some buf
  | v :: vs, buf =>
    match g.neighbors v with
    | none => fixGo g pick vs buf
    | some nbrs =>
      match buf.get? v with
      | none => none
      | some 0 =>
        match anyP buf (fun x => x == 2) nbrs with
        | none => none
        | some true => fixGo g pick vs buf
        | some false =>
          match choose nbrs (pick v) with
          | none => fixGo g pick vs buf
          | some u => if u < buf.length then fixGo g pick vs (buf.set u 2) else none
      | some 1 | some 2 =>
        match anyP buf (fun x => decide (0 < x)) nbrs with
        | none => none
        | some true => fixGo g pick vs buf
        | some false =>
          match choose nbrs (pick v) with
          | none => fixGo g pick vs buf
          | some u => if u < buf.length then fixGo g pick vs (buf.set u 1) else none
      | some _ => fixGo g pick vs (buf.set v 0)

/-- Chromosome::fix_chromosome from chromosome.rs: clones the gene buffer,
runs one repair pass over vertex ids 0..graph.vertex_count, and builds a new
Chromosome from the patched buffer.  The oracle pick supplies the random
choice made at each vertex. -/
def Chromosome.fix_chromosome (c : Chromosome) (g : SimpleGraph) (pick : Nat → Nat) :
    Option Chromosome :=
  (fixGo g pick (List.range g.vertex_count) c.genes).map Chromosome.new

/-- KTournamentSelection from selection.rs: carries the configured tournament
size. -/
structure KTournamentSelection where
  tournament_size : Nat

/-- Fitness of the individual at index i of the population (the population
collaborator is embedded as the list of its individuals); none models the
panic of an out-of-bounds access. -/
def popFitness (pop : List Chromosome) (i : Nat) : Option Nat :=
  (pop.get? i).map Chromosome.fitness

/-- Accumulator loop of Iterator::max_by_key over the drawn indices: bi is the
current best index and bf its fitness key; a later element whose key is at
least the current best replaces it, so on ties the last-encountered maximum
wins, exactly as Rust's max_by_key documents. -/
def bestGo (key : Nat → Option Nat) (bi bf : Nat) : List Nat → Option Nat
  | [] => some bi
  | i :: rest =>
    match key i with
    | none => none
    | some f => if bf ≤ f then bestGo key i f rest else bestGo key bi bf rest

/-- Embedding of indices.iter().max_by_key(fitness) followed by unwrap: on an
empty index list max_by_key yields None and the unwrap panics (none here). -/
def bestIndex (key : Nat → Option Nat) : List Nat → Option Nat
  | [] => none
  | i :: rest =>
    match key i with
    | none => none
    | some f => bestGo key i f rest

/-- One tournament of KTournamentSelection::select: determine the best index
among the drawn indices and clone that individual. -/
def tournament (pop : List Chromosome) (indices : List Nat) : Option Chromosome :=
  match bestIndex (popFitness pop) indices with
  | none => none
  | some b => pop.get? b

/-- Modelled from the spec: IteratorRandom::choose_multiple of the rand crate
(an external dependency) draws amount distinct elements without replacement,
and silently returns all elements when fewer than amount are available.  The
randomness is supplied as an arbitrary traversal order of the underlying
index range; taking the first amount elements of it realises every possible
draw. -/
def chooseMultiple (order : List Nat) (amount : Nat) : List Nat :=
  order.take amount

/-- Main loop of KTournamentSelection::select: one tournament per remaining
loop counter, pushing each winner onto the new individuals list. -/
def selectGo (pop : List Chromosome) (draws : Nat → List Nat) :
    List Nat → Option (List Chromosome)
  | [] => some []
  | t :: ts =>
    match tournament pop (draws t) with
    | none => none
    | some c => (selectGo pop draws ts).map (fun rest => c :: rest)

/-- KTournamentSelection::select from selection.rs: population.size()
tournaments, each drawing tournament_size indices via choose_multiple (the
oracle orders t gives the random traversal order used by tournament t), and
collecting the winners into the new population. -/
def KTournamentSelection.select (s : KTournamentSelection) (pop : List Chromosome)
    (orders : Nat → List Nat) : Option (List Chromosome) :=
  selectGo pop (fun t => chooseMultiple (orders t) s.tournament_size) (List.range pop.length)

/-- Formalisation of the validity condition exactly as claim C2 words it, for
one vertex: the neighbor lookup succeeds and either the vertex's gene is 0
and some neighbor has gene value exactly 2, or the vertex's gene is 1 or 2
and some neighbor has gene value strictly greater than 0. -/
def specVertex (g : SimpleGraph) (genes : List Nat) (v : Nat) : Prop :=
  ∃ nbrs, g.neighbors v = some nbrs ∧
    ((genes.get? v = some 0 ∧ ∃ u ∈ nbrs, genes.get? u = some 2) ∨
      ((genes.get? v = some 1 ∨ genes.get? v = some 2) ∧
        ∃ u ∈ nbrs, ∃ y, genes.get? u = some y ∧ 0 < y))

/-- Path graph on two vertices 0 - 1 (concrete instance used in witnesses and
counterexamples). -/
def pathG : SimpleGraph :=
  { vertex_count := 2, neighbors := fun v => if v = 0 then some [1] else some [0] }

/-- Degenerate random oracle that always answers 0. -/
def pickZero : Nat → Nat := fun _ => 0

/-- Concrete graph for the C2 counterexample: three vertices, where the
neighbor list of vertex 0 contains the out-of-range index 9 before the
genuine neighbor 1. -/
def gC2 : SimpleGraph :=
  { vertex_count := 3,
    neighbors := fun v => if v = 0 then some [9, 1] else if v = 1 then some [2] else some [1] }

/-- Single vertex graph with an empty neighbor list. -/
def g1V : SimpleGraph :=
  { vertex_count := 1, neighbors := fun _ => some [] }

/-- Graph whose neighbor lookup always fails. -/
def gNone : SimpleGraph :=
  { vertex_count := 1, neighbors := fun _ => none }

/-- Concrete two-individual population used by the selection witnesses. -/
def pop2 : List Chromosome := [Chromosome.new [1], Chromosome.new [2]]

/-- Concrete one-individual population used by the C10 witness. -/
def pop1 : List Chromosome := [Chromosome.new [1, 1]]

/-- Constant draw-order oracle listing both indices of pop2. -/
def orders01 : Nat → List Nat := fun _ => [0, 1]

/-- Constant draw-order oracle listing the single index of pop1. -/
def orders0 : Nat → List Nat := fun _ => [0]

/-- Helper: the short-circuiting any over in-bounds indices never panics. -/
theorem anyP_total (genes : List Nat) (p : Nat → Bool) (l : List Nat)
    (h : ∀ u ∈ l, u < genes.length) : ∃ b, anyP genes p l = some b := by
  induction l with
  | nil => exact ⟨false, rfl⟩
  | cons u rest ih =>
    have hu : u < genes.length := h u (List.mem_cons_self u rest)
    have hgu : genes.get? u = some (genes.get ⟨u, hu⟩) := List.get?_eq_get hu
    by_cases hp : p (genes.get ⟨u, hu⟩)
    · exact ⟨true, by simp only [anyP, hgu]; rw [if_pos hp]⟩
    · obtain ⟨b, hb⟩ := ih (fun x hx => h x (List.mem_cons_of_mem _ hx))
      exact ⟨b, by simp only [anyP, hgu]; rw [if_neg hp, hb]⟩

/-- Helper: when the any returns false, every listed index is in bounds and its
gene fails the predicate. -/
theorem anyP_false (genes : List Nat) (p : Nat → Bool) (l : List Nat)
    (h : anyP genes p l = some false) :
    ∀ u ∈ l, ∃ x, genes.get? u = some x ∧ p x = false := by
  induction l with
  | nil => simp
  | cons u rest ih =>
    intro w hw
    rw [anyP] at h
    cases hg : genes.get? u with
    | none => rw [hg] at h; exact absurd h (by simp)
    | some x =>
      rw [hg] at h
      by_cases hp : p x
      · simp [hp] at h
      · simp only [hp, if_false, Bool.false_eq_true] at h
        rcases List.mem_cons.mp hw with rfl | hw2
        · exact ⟨x, hg, by simpa using hp⟩
        · exact ih h w hw2

/-- Helper: when the any returns true, some listed index holds a gene
satisfying the predicate. -/
theorem anyP_true (genes : List Nat) (p : Nat → Bool) (l : List Nat)
    (h : anyP genes p l = some true) :
    ∃ u ∈ l, ∃ x, genes.get? u = some x ∧ p x = true := by
  induction l with
  | nil => simp [anyP] at h
  | cons u rest ih =>
    rw [anyP] at h
    cases hg : genes.get? u with
    | none => rw [hg] at h; exact absurd h (by simp)
    | some x =>
      rw [hg] at h
      by_cases hp : p x
      · exact ⟨u, List.mem_cons_self u rest, x, hg, hp⟩
      · simp only [hp, if_false] at h
        obtain ⟨w, hw, hx⟩ := ih h
        exact ⟨w, List.mem_cons_of_mem _ hw, hx⟩

/-- Helper: a successful random choice picks an element of the list. -/
theorem choose_mem (l : List Nat) (k u : Nat) (h : choose l k = some u) : u ∈ l :=
  List.get?_mem h

/-- Helper: random choice from a nonempty list always succeeds. -/
theorem choose_total (l : List Nat) (k : Nat) (h : l ≠ []) :
    ∃ u, choose l k = some u := by
  have hlen : 0 < l.length := List.length_pos.mpr h
  have hm : k % l.length < l.length := Nat.mod_lt k hlen
  exact ⟨_, by rw [choose, List.get?_eq_get hm]⟩

/-- C6: a failed neighbor lookup during the validity check makes the whole
check return false at once (fail-closed), while during the repair pass it
leaves the working buffer untouched at that step and continues with the
remaining vertices (fail-silent). -/
theorem lookup_failure_asymmetry (g : SimpleGraph) (genes buf : List Nat)
    (pick : Nat → Nat) (v : Nat) (vs : List Nat) (h : g.neighbors v = none) :
    validGo g genes (v :: vs) = some false ∧
      fixGo g pick (v :: vs) buf = fixGo g pick vs buf := by
  constructor
  · rw [validGo, h]
  · rw [fixGo, h]

/-- Witness for C6 at a concrete graph whose lookups always fail. -/
theorem lookup_failure_asymmetry_witness :
    gNone.neighbors 0 = none ∧
      (validGo gNone [0] (0 :: []) = some false ∧
        fixGo gNone pickZero (0 :: []) [0] = fixGo gNone pickZero [] [0]) :=
  ⟨rfl, lookup_failure_asymmetry gNone [0] [0] pickZero 0 [] rfl⟩

/-- C9: on a graph with exactly one vertex and an empty neighbor list, every
single-gene chromosome is declared invalid, whatever the gene value. -/
theorem single_vertex_always_invalid (g : SimpleGraph) (x : Nat)
    (hn : g.vertex_count = 1) (hnb : g.neighbors 0 = some []) :
    (Chromosome.new [x]).is_valid_to_total_roman_domination g = some false := by
  rw [Chromosome.is_valid_to_total_roman_domination, hn]
  have : List.range 1 = [0] := rfl
  rw [this]
  rcases x with _ | _ | _ | x <;> simp [validGo, hnb, anyP] <;> rfl

/-- Witness for C9 at the concrete one-vertex graph and gene value 2. -/
theorem single_vertex_always_invalid_witness :
    g1V.vertex_count = 1 ∧ g1V.neighbors 0 = some [] ∧
      (Chromosome.new [2]).is_valid_to_total_roman_domination g1V = some false :=
  ⟨rfl, rfl, single_vertex_always_invalid g1V 2 rfl rfl⟩

/-- C7: a chromosome built by the constructor stores as fitness exactly the
sum of its genes, and so does every chromosome returned by the repair pass;
genes are never mutated after construction, so the two cannot desynchronize. -/
theorem fitness_sum_invariant (gs : List Nat) (g : SimpleGraph) (c : Chromosome)
    (pick : Nat → Nat) (c2 : Chromosome) (hfix : c.fix_chromosome g pick = some c2) :
    (Chromosome.new gs).fitness = (Chromosome.new gs).genes.sum ∧
      c2.fitness = c2.genes.sum := by
  refine ⟨rfl, ?_⟩
  rw [Chromosome.fix_chromosome] at hfix
  obtain ⟨res, hres, rfl⟩ := Option.map_eq_some'.mp hfix
  rfl

/-- Witness for C7 at a concrete repaired chromosome. -/
theorem fitness_sum_invariant_witness :
    (Chromosome.new [0, 3]).fix_chromosome pathG pickZero = some (Chromosome.new [1, 2]) ∧
      ((Chromosome.new [1, 2]).fitness = (Chromosome.new [1, 2]).genes.sum ∧
        (Chromosome.new [1, 2]).fitness = (Chromosome.new [1, 2]).genes.sum) :=
  ⟨rfl, fitness_sum_invariant [1, 2] pathG (Chromosome.new [0, 3]) pickZero
    (Chromosome.new [1, 2]) rfl⟩

/-- Counterexample to C4 as stated: on a one-vertex graph, checking a
chromosome whose gene sequence is shorter than the vertex count indexes the
gene buffer out of bounds, which panics (modelled by none) instead of
returning a boolean. -/
theorem abort_counterexample :
    ¬ ∃ b, (Chromosome.new []).is_valid_to_total_roman_domination g1V = some b := by
  rintro ⟨b, hb⟩
  have hnone : (Chromosome.new []).is_valid_to_total_roman_domination g1V = none := rfl
  rw [hnone] at hb
  exact Option.noConfusion hb

/-- Helper: a repair pass run on a gene buffer that already validates makes no
change at any vertex and returns the buffer unchanged. -/
theorem validGo_true_fixGo_eq (g : SimpleGraph) (pick : Nat → Nat) (genes : List Nat) :
    ∀ vs, validGo g genes vs = some true → fixGo g pick vs genes = some genes := by
  intro vs
  induction vs with
  | nil => intro _; rfl
  | cons v vs ih =>
    intro h
    cases hnbv : g.neighbors v with
    | none =>
      simp only [validGo, hnbv] at h
      exact absurd h (by simp)
    | some nbrs =>
      cases hgv : genes.get? v with
      | none =>
        simp only [validGo, hnbv, hgv] at h
        exact Option.noConfusion h
      | some x =>
        rcases x with _ | _ | _ | x
        · simp only [validGo, hnbv, hgv] at h
          cases hany : anyP genes (fun y => y == 2) nbrs with
          | none => rw [hany] at h; exact Option.noConfusion h
          | some b =>
            cases b with
            | false => rw [hany] at h; exact absurd h (by simp)
            | true =>
              rw [hany] at h
              simp only [fixGo, hnbv, hgv, hany]
              exact ih h
        · simp only [validGo, hnbv, hgv] at h
          cases hany : anyP genes (fun y => decide (0 < y)) nbrs with
          | none => rw [hany] at h; exact Option.noConfusion h
          | some b =>
            cases b with
            | false => rw [hany] at h; exact absurd h (by simp)
            | true =>
              rw [hany] at h
              simp only [fixGo, hnbv, hgv, hany]
              exact ih h
        · simp only [validGo, hnbv, hgv] at h
          cases hany : anyP genes (fun y => decide (0 < y)) nbrs with
          | none => rw [hany] at h; exact Option.noConfusion h
          | some b =>
            cases b with
            | false => rw [hany] at h; exact absurd h (by simp)
            | true =>
              rw [hany] at h
              simp only [fixGo, hnbv, hgv, hany]
              exact ih h
        · simp only [validGo, hnbv, hgv] at h

          exact absurd h (by simp)

/-- C3: repairing a chromosome that is already valid for the graph returns a
chromosome with the identical gene sequence, for every sequence of random
choices. -/
theorem fix_noop_on_valid (c : Chromosome) (g : SimpleGraph) (pick : Nat → Nat)
    (h : c.is_valid_to_total_roman_domination g = some true) :
    ∃ c2, c.fix_chromosome g pick = some c2 ∧ c2.genes = c.genes := by
  refine ⟨Chromosome.new c.genes, ?_, rfl⟩
  rw [Chromosome.fix_chromosome, validGo_true_fixGo_eq g pick c.genes _ h]
  rfl

/-- Witness for C3: a concrete valid chromosome on the two-vertex path graph
passes through repair unchanged. -/
theorem fix_noop_on_valid_witness :
    (Chromosome.new [1, 1]).is_valid_to_total_roman_domination pathG = some true ∧
      ∃ c2, (Chromosome.new [1, 1]).fix_chromosome pathG pickZero = some c2 ∧
        c2.genes = (Chromosome.new [1, 1]).genes :=
  ⟨rfl, fix_noop_on_valid (Chromosome.new [1, 1]) pathG pickZero rfl⟩

/-- Counterexample to C1 as stated: on the path graph 0 - 1 with input genes
[0, 3], the repair pass first relabels vertex 1 (the only neighbour of the
0-labeled vertex 0) to 2, then relabels vertex 0 to 1; the position whose
input value 3 was outside the range 0..2 holds 2 in the output, not 0. -/
theorem monotone_reset_counterexample :
    ¬ ∀ c2 : Chromosome, (Chromosome.new [0, 3]).fix_chromosome pathG pickZero = some c2 →
      ∀ i x y, (Chromosome.new [0, 3]).genes.get? i = some x →
        c2.genes.get? i = some y →
        ((x = 0 ∨ x = 1 ∨ x = 2) → x ≤ y) ∧ (¬(x = 0 ∨ x = 1 ∨ x = 2) → y = 0) := by
  intro h
  have h2 := h (Chromosome.new [1, 2]) rfl 1 3 2 rfl rfl
  have h3 : ¬((3 : Nat) = 0 ∨ (3 : Nat) = 1 ∨ (3 : Nat) = 2) := by decide
  exact absurd (h2.2 h3) (by decide)

/-- Helper: the repair pass maintains, relative to the original gene buffer,
that every position whose original value was in 0..2 only ever grows and
stays in 0..2, and every position whose original value was malformed either
now lies in 0..2 or is still untouched. -/
theorem fixGo_invariant (g : SimpleGraph) (pick : Nat → Nat) (orig : List Nat) :
    ∀ (vs buf res : List Nat),
      buf.length = orig.length →
      (∀ i w, orig.get? i = some w → ∃ y, buf.get? i = some y ∧
        (w ≤ 2 → w ≤ y ∧ y ≤ 2) ∧ (2 < w → y ≤ 2 ∨ y = w)) →
      fixGo g pick vs buf = some res →
      res.length = orig.length ∧
        ∀ i w, orig.get? i = some w → ∃ y, res.get? i = some y ∧
          (w ≤ 2 → w ≤ y ∧ y ≤ 2) ∧ (2 < w → y ≤ 2 ∨ y = w) := by
  intro vs
  induction vs with
  | nil =>
    intro buf res hlen hinv h
    rw [fixGo] at h
    cases h
    exact ⟨hlen, hinv⟩
  | cons v vs ih =>
    intro buf res hlen hinv h
    cases hnbv : g.neighbors v with
    | none =>
      simp only [fixGo, hnbv] at h
      exact ih buf res hlen hinv h
    | some nbrs =>
      cases hbv : buf.get? v with
      | none =>
        simp only [fixGo, hnbv, hbv] at h
        exact Option.noConfusion h
      | some x =>
        rcases x with _ | _ | _ | x
        · -- current value 0: possibly relabel a chosen neighbour to 2
          simp only [fixGo, hnbv, hbv] at h
          cases hany : anyP buf (fun y => y == 2) nbrs with
          | none => rw [hany] at h; exact Option.noConfusion h
          | some b =>
            cases b with
            | true => rw [hany] at h; exact ih buf res hlen hinv h
            | false =>
              rw [hany] at h
              cases hch : choose nbrs (pick v) with
              | none => rw [hch] at h; exact ih buf res hlen hinv h
              | some u =>
                rw [hch] at h
                have hif : (if u < buf.length
                    then fixGo g pick vs (buf.set u 2) else none) = some res := h
                by_cases hu : u < buf.length
                · rw [if_pos hu] at hif
                  refine ih (buf.set u 2) res (by rw [List.length_set]; exact hlen) ?_ hif
                  intro i w hw
                  by_cases hiu : i = u
                  · subst hiu
                    refine ⟨2, List.get?_set_eq_of_lt 2 hu, ?_, ?_⟩
                    · intro hw2; exact ⟨hw2, le_refl 2⟩
                    · intro _; exact Or.inl (le_refl 2)
                  · obtain ⟨y, hy, h1, h2⟩ := hinv i w hw
                    exact ⟨y, by
                      rw [List.get?_set_ne 2 buf (fun he => hiu he.symm)]; exact hy, h1, h2⟩
                · rw [if_neg hu] at hif; exact Option.noConfusion hif
        · -- current value 1: possibly relabel a chosen zero-valued neighbour to 1
          simp only [fixGo, hnbv, hbv] at h
          cases hany : anyP buf (fun y => decide (0 < y)) nbrs with
          | none => rw [hany] at h; exact Option.noConfusion h
          | some b =>
            cases b with
            | true => rw [hany] at h; exact ih buf res hlen hinv h
            | false =>
              rw [hany] at h
              cases hch : choose nbrs (pick v) with
              | none => rw [hch] at h; exact ih buf res hlen hinv h
              | some u =>
                rw [hch] at h
                have hif : (if u < buf.length
                    then fixGo g pick vs (buf.set u 1) else none) = some res := h
                by_cases hu : u < buf.length
                · rw [if_pos hu] at hif
                  have hu0 : buf.get? u = some 0 := by
                    obtain ⟨x0, hx0, hp0⟩ :=
                      anyP_false buf _ nbrs hany u (choose_mem nbrs (pick v) u hch)
                    have hz : x0 = 0 := by
                      by_contra hne
                      have : 0 < x0 := Nat.pos_of_ne_zero hne
                      simp [this] at hp0
                    rw [hz] at hx0; exact hx0
                  refine ih (buf.set u 1) res (by rw [List.length_set]; exact hlen) ?_ hif
                  intro i w hw
                  by_cases hiu : i = u
                  · subst hiu
                    obtain ⟨y, hy, h1, h2⟩ := hinv i w hw
                    have hy0 : y = 0 := Option.some.inj (hy.symm.trans hu0)
                    refine ⟨1, List.get?_set_eq_of_lt 1 hu, ?_, ?_⟩
                    · intro hw2
                      have := (h1 hw2).1
                      constructor <;> omega
                    · intro _; exact Or.inl (by omega)
                  · obtain ⟨y, hy, h1, h2⟩ := hinv i w hw
                    exact ⟨y, by
                      rw [List.get?_set_ne 1 buf (fun he => hiu he.symm)]; exact hy, h1, h2⟩
                · rw [if_neg hu] at hif; exact Option.noConfusion hif
        · -- current value 2: same code path as value 1
          simp only [fixGo, hnbv, hbv] at h
          cases hany : anyP buf (fun y => decide (0 < y)) nbrs with
          | none => rw [hany] at h; exact Option.noConfusion h
          | some b =>
            cases b with
            | true => rw [hany] at h; exact ih buf res hlen hinv h
            | false =>
              rw [hany] at h
              cases hch : choose nbrs (pick v) with
              | none => rw [hch] at h; exact ih buf res hlen hinv h
              | some u =>
                rw [hch] at h
                have hif : (if u < buf.length
                    then fixGo g pick vs (buf.set u 1) else none) = some res := h
                by_cases hu : u < buf.length
                · rw [if_pos hu] at hif
                  have hu0 : buf.get? u = some 0 := by
                    obtain ⟨x0, hx0, hp0⟩ :=
                      anyP_false buf _ nbrs hany u (choose_mem nbrs (pick v) u hch)
                    have hz : x0 = 0 := by
                      by_contra hne
                      have : 0 < x0 := Nat.pos_of_ne_zero hne
                      simp [this] at hp0
                    rw [hz] at hx0; exact hx0
                  refine ih (buf.set u 1) res (by rw [List.length_set]; exact hlen) ?_ hif
                  intro i w hw
                  by_cases hiu : i = u
                  · subst hiu
                    obtain ⟨y, hy, h1, h2⟩ := hinv i w hw
                    have hy0 : y = 0 := Option.some.inj (hy.symm.trans hu0)
                    refine ⟨1, List.get?_set_eq_of_lt 1 hu, ?_, ?_⟩
                    · intro hw2
                      have := (h1 hw2).1
                      constructor <;> omega
                    · intro _; exact Or.inl (by omega)
                  · obtain ⟨y, hy, h1, h2⟩ := hinv i w hw
                    exact ⟨y, by
                      rw [List.get?_set_ne 1 buf (fun he => hiu he.symm)]; exact hy, h1, h2⟩
                · rw [if_neg hu] at hif; exact Option.noConfusion hif
        · -- malformed current value: reset this vertex to 0
          simp only [fixGo, hnbv, hbv] at h
          have hv : v < buf.length := by
            by_contra hge
            rw [List.get?_eq_none.mpr (Nat.le_of_not_lt hge)] at hbv
            exact Option.noConfusion hbv
          refine ih (buf.set v 0) res (by rw [List.length_set]; exact hlen) ?_ h
          intro i w hw
          by_cases hiv : i = v
          · subst hiv
            obtain ⟨y, hy, h1, h2⟩ := hinv i w hw
            have hyx : y = x + 1 + 1 + 1 := Option.some.inj (hy.symm.trans hbv)
            refine ⟨0, List.get?_set_eq_of_lt 0 hv, ?_, ?_⟩
            · intro hw2
              exfalso
              have := (h1 hw2).2
              omega
            · intro _; exact Or.inl (by omega)
          · obtain ⟨y, hy, h1, h2⟩ := hinv i w hw
            exact ⟨y, by
              rw [List.get?_set_ne 0 buf (fun he => hiv he.symm)]; exact hy, h1, h2⟩

/-- C1 (amended): at every position whose input gene value lies in 0..2 the
repaired value is greater than or equal to the input value and still lies in
0..2; at every position whose input gene value lies outside 0..2 the repaired
value either lies in 0..2 or is the input value unchanged (the vertex can be
skipped when its neighbor lookup fails, and a reset position can later be
raised to 1 or 2 by the repair of a neighbouring vertex). -/
theorem fix_monotone_or_reset (c : Chromosome) (g : SimpleGraph) (pick : Nat → Nat)
    (c2 : Chromosome) (hfix : c.fix_chromosome g pick = some c2) :
    ∀ i w, c.genes.get? i = some w → ∃ y, c2.genes.get? i = some y ∧
      (w ≤ 2 → w ≤ y ∧ y ≤ 2) ∧ (2 < w → y ≤ 2 ∨ y = w) := by
  rw [Chromosome.fix_chromosome] at hfix
  obtain ⟨res, hres, rfl⟩ := Option.map_eq_some'.mp hfix
  have hust := fixGo_invariant g pick c.genes (List.range g.vertex_count) c.genes res rfl
    (fun i w hw => ⟨w, hw, fun h2 => ⟨le_refl w, h2⟩, fun _ => Or.inr rfl⟩) hres
  exact hust.2

/-- Witness for C1 (amended) at the concrete repair of [0, 3] on the path
graph, looked at position 0. -/
theorem fix_monotone_or_reset_witness :
    ∃ y, (Chromosome.new [1, 2]).genes.get? 0 = some y ∧
      (0 ≤ 2 → 0 ≤ y ∧ y ≤ 2) ∧ (2 < 0 → y ≤ 2 ∨ y = 0) :=
  fix_monotone_or_reset (Chromosome.new [0, 3]) pathG pickZero (Chromosome.new [1, 2])
    rfl 0 0 rfl

/-- Helper: when every vertex id to be processed and every successfully
returned neighbour index is within the gene buffer, the validity loop returns
true exactly when every processed vertex satisfies the per-vertex condition
of the specification. -/
theorem validGo_eq_true_iff (g : SimpleGraph) (genes : List Nat) :
    ∀ vs, (∀ v ∈ vs, v < genes.length) →
      (∀ v nbrs, g.neighbors v = some nbrs → ∀ u ∈ nbrs, u < genes.length) →
      (validGo g genes vs = some true ↔ ∀ v ∈ vs, specVertex g genes v) := by
  intro vs
  induction vs with
  | nil => intro _ _; simp [validGo]
  | cons v vs ih =>
    intro hv hnb
    have hrec := ih (fun w hw => hv w (List.mem_cons_of_mem _ hw)) hnb
    constructor
    · intro h
      cases hnbv : g.neighbors v with
      | none =>
        simp only [validGo, hnbv] at h
        exact absurd h (by simp)
      | some nbrs =>
        cases hgv : genes.get? v with
        | none =>
          simp only [validGo, hnbv, hgv] at h
          exact Option.noConfusion h
        | some x =>
          rcases x with _ | _ | _ | x
          · simp only [validGo, hnbv, hgv] at h
            cases hany : anyP genes (fun y => y == 2) nbrs with
            | none => rw [hany] at h; exact Option.noConfusion h
            | some b =>
              cases b with
              | false => rw [hany] at h; exact absurd h (by simp)
              | true =>
                rw [hany] at h
                intro w hw
                rcases List.mem_cons.mp hw with rfl | hw2
                · obtain ⟨u, hu, x2, hx2, hp2⟩ := anyP_true genes _ nbrs hany
                  have hx22 : x2 = 2 := by simpa using hp2
                  refine ⟨nbrs, hnbv, Or.inl ⟨hgv, u, hu, ?_⟩⟩
                  rw [← hx22]; exact hx2
                · exact (hrec.mp h) w hw2
          · simp only [validGo, hnbv, hgv] at h
            cases hany : anyP genes (fun y => decide (0 < y)) nbrs with
            | none => rw [hany] at h; exact Option.noConfusion h
            | some b =>
              cases b with
              | false => rw [hany] at h; exact absurd h (by simp)
              | true =>
                rw [hany] at h
                intro w hw
                rcases List.mem_cons.mp hw with rfl | hw2
                · obtain ⟨u, hu, x2, hx2, hp2⟩ := anyP_true genes _ nbrs hany
                  have hpos : 0 < x2 := by simpa using hp2
                  exact ⟨nbrs, hnbv, Or.inr ⟨Or.inl hgv, u, hu, x2, hx2, hpos⟩⟩
                · exact (hrec.mp h) w hw2
          · simp only [validGo, hnbv, hgv] at h
            cases hany : anyP genes (fun y => decide (0 < y)) nbrs with
            | none => rw [hany] at h; exact Option.noConfusion h
            | some b =>
              cases b with
              | false => rw [hany] at h; exact absurd h (by simp)
              | true =>
                rw [hany] at h
                intro w hw
                rcases List.mem_cons.mp hw with rfl | hw2
                · obtain ⟨u, hu, x2, hx2, hp2⟩ := anyP_true genes _ nbrs hany
                  have hpos : 0 < x2 := by simpa using hp2
                  exact ⟨nbrs, hnbv, Or.inr ⟨Or.inr hgv, u, hu, x2, hx2, hpos⟩⟩
                · exact (hrec.mp h) w hw2
          · simp only [validGo, hnbv, hgv] at h
            exact absurd h (by simp)
    · intro h
      obtain ⟨nbrs, hnbv, hbranch⟩ := h v (List.mem_cons_self v vs)
      have htail : validGo g genes vs = some true :=
        hrec.mpr (fun w hw => h w (List.mem_cons_of_mem _ hw))
      rcases hbranch with ⟨hgv, u, hu, hu2⟩ | ⟨hgv12, u, hu, y, hy, hypos⟩
      · obtain ⟨b, hb⟩ := anyP_total genes (fun y => y == 2) nbrs (hnb v nbrs hnbv)
        cases b with
        | false =>
          obtain ⟨x2, hx2, hp⟩ := anyP_false genes _ nbrs hb u hu
          have hx22 : x2 = 2 := Option.some.inj (hx2.symm.trans hu2)
          rw [hx22] at hp
          simp at hp
        | true =>
          simp only [validGo, hnbv, hgv, hb]
          exact htail
      · obtain ⟨b, hb⟩ := anyP_total genes (fun y2 => decide (0 < y2)) nbrs (hnb v nbrs hnbv)
        cases b with
        | false =>
          obtain ⟨x2, hx2, hp⟩ := anyP_false genes _ nbrs hb u hu
          have hx2y : x2 = y := Option.some.inj (hx2.symm.trans hy)
          rw [hx2y] at hp
          simp [hypos] at hp
        | true =>
          rcases hgv12 with hgv | hgv
          · simp only [validGo, hnbv, hgv, hb]
            exact htail
          · simp only [validGo, hnbv, hgv, hb]
            exact htail

/-- C2 (amended): provided every successfully returned neighbour list contains
only indices within the gene sequence, and the gene sequence has length equal
to the vertex count, the validity check returns true exactly when every
vertex satisfies the per-vertex condition the claim states; in particular it
returns true on a zero-vertex graph. -/
theorem validity_characterization (g : SimpleGraph) (c : Chromosome)
    (hnb : ∀ v nbrs, g.neighbors v = some nbrs → ∀ u ∈ nbrs, u < c.genes.length)
    (hlen : c.genes.length = g.vertex_count) :
    (c.is_valid_to_total_roman_domination g = some true ↔
      ∀ v, v < g.vertex_count → specVertex g c.genes v) ∧
      (g.vertex_count = 0 → c.is_valid_to_total_roman_domination g = some true) := by
  have hiff := validGo_eq_true_iff g c.genes (List.range g.vertex_count)
    (fun v hvm => by rw [hlen]; exact List.mem_range.mp hvm) hnb
  constructor
  · unfold Chromosome.is_valid_to_total_roman_domination
    rw [hiff]
    constructor
    · intro hall v hvlt; exact hall v (List.mem_range.mpr hvlt)
    · intro hall v hvm; exact hall v (List.mem_range.mp hvm)
  · intro h0
    unfold Chromosome.is_valid_to_total_roman_domination
    rw [h0]
    rfl

/-- Counterexample to C2 as stated: in the three-vertex graph gC2 the neighbor
list of vertex 0 starts with the out-of-range index 9 followed by the genuine
neighbour 1, so on genes [0, 2, 1] the check panics on the out-of-bounds gene
access (none, hence not true), while the claimed right-hand side holds at
every vertex, so the stated equivalence fails even though the gene sequence
length equals the vertex count. -/
theorem validity_characterization_counterexample :
    (([0, 2, 1] : List Nat).length = gC2.vertex_count) ∧
      ¬ ((Chromosome.new [0, 2, 1]).is_valid_to_total_roman_domination gC2 = some true ↔
          ∀ v, v < gC2.vertex_count → specVertex gC2 [0, 2, 1] v) := by
  refine ⟨rfl, ?_⟩
  intro hiff
  have hrhs : ∀ v, v < gC2.vertex_count → specVertex gC2 ([0, 2, 1] : List Nat) v := by
    intro v hv
    have hv3 : v < 3 := hv
    rcases v with _ | _ | _ | v
    · exact ⟨[9, 1], rfl, Or.inl ⟨rfl, 1, by simp, rfl⟩⟩
    · exact ⟨[2], rfl, Or.inr ⟨Or.inr rfl, 2, by simp, 1, rfl, by omega⟩⟩
    · exact ⟨[1], rfl, Or.inr ⟨Or.inl rfl, 1, by simp, 2, rfl, by omega⟩⟩
    · exact absurd hv3 (by omega)
  have hcontra := hiff.mpr hrhs
  have hnone : (Chromosome.new [0, 2, 1]).is_valid_to_total_roman_domination gC2 = none := rfl
  rw [hnone] at hcontra
  exact Option.noConfusion hcontra

/-- Witness for C2 (amended) at the two-vertex path graph with both vertices
labeled 1. -/
theorem validity_characterization_witness :
    ((Chromosome.new [1, 1]).is_valid_to_total_roman_domination pathG = some true ↔
      ∀ v, v < pathG.vertex_count → specVertex pathG (Chromosome.new [1, 1]).genes v) ∧
      (pathG.vertex_count = 0 →
        (Chromosome.new [1, 1]).is_valid_to_total_roman_domination pathG = some true) :=
  validity_characterization pathG (Chromosome.new [1, 1])
    (by
      intro v nbrs h u hu
      simp only [pathG] at h
      split at h <;> injection h with h2 <;> subst h2 <;>
        simp only [List.mem_singleton] at hu <;> subst hu <;> decide)
    rfl

/-- Helper: the validity loop never panics when every processed vertex id and
every successfully returned neighbour index is within the gene buffer. -/
theorem validGo_total (g : SimpleGraph) (genes : List Nat) :
    ∀ vs, (∀ v ∈ vs, v < genes.length) →
      (∀ v nbrs, g.neighbors v = some nbrs → ∀ u ∈ nbrs, u < genes.length) →
      ∃ b, validGo g genes vs = some b := by
  intro vs
  induction vs with
  | nil => intro _ _; exact ⟨true, rfl⟩
  | cons v vs ih =>
    intro hv hnb
    obtain ⟨b, hb⟩ := ih (fun w hw => hv w (List.mem_cons_of_mem _ hw)) hnb
    cases hnbv : g.neighbors v with
    | none => exact ⟨false, by simp only [validGo, hnbv]⟩
    | some nbrs =>
      have hvlt : v < genes.length := hv v (List.mem_cons_self v vs)
      have hgv : genes.get? v = some (genes.get ⟨v, hvlt⟩) := List.get?_eq_get hvlt
      rcases hx : genes.get ⟨v, hvlt⟩ with _ | _ | _ | x
      all_goals rw [hx] at hgv
      · obtain ⟨b2, hb2⟩ := anyP_total genes (fun y => y == 2) nbrs (hnb v nbrs hnbv)
        cases b2 with
        | true => exact ⟨b, by simp only [validGo, hnbv, hgv, hb2]; exact hb⟩
        | false => exact ⟨false, by simp only [validGo, hnbv, hgv, hb2]⟩
      · obtain ⟨b2, hb2⟩ := anyP_total genes (fun y => decide (0 < y)) nbrs (hnb v nbrs hnbv)
        cases b2 with
        | true => exact ⟨b, by simp only [validGo, hnbv, hgv, hb2]; exact hb⟩
        | false => exact ⟨false, by simp only [validGo, hnbv, hgv, hb2]⟩
      · obtain ⟨b2, hb2⟩ := anyP_total genes (fun y => decide (0 < y)) nbrs (hnb v nbrs hnbv)
        cases b2 with
        | true => exact ⟨b, by simp only [validGo, hnbv, hgv, hb2]; exact hb⟩
        | false => exact ⟨false, by simp only [validGo, hnbv, hgv, hb2]⟩
      · exact ⟨false, by simp only [validGo, hnbv, hgv]⟩

/-- Helper: the repair loop never panics when every processed vertex id and
every successfully returned neighbour index is within the working buffer. -/
theorem fixGo_total (g : SimpleGraph) (pick : Nat → Nat) :
    ∀ (vs buf : List Nat), (∀ v ∈ vs, v < buf.length) →
      (∀ v nbrs, g.neighbors v = some nbrs → ∀ u ∈ nbrs, u < buf.length) →
      ∃ res, fixGo g pick vs buf = some res := by
  intro vs
  induction vs with
  | nil => intro buf _ _; exact ⟨buf, rfl⟩
  | cons v vs ih =>
    intro buf hv hnb
    have htl : ∀ w ∈ vs, w < buf.length := fun w hw => hv w (List.mem_cons_of_mem _ hw)
    cases hnbv : g.neighbors v with
    | none =>
      obtain ⟨res, hres⟩ := ih buf htl hnb
      exact ⟨res, by simp only [fixGo, hnbv]; exact hres⟩
    | some nbrs =>
      have hvlt : v < buf.length := hv v (List.mem_cons_self v vs)
      have hgv : buf.get? v = some (buf.get ⟨v, hvlt⟩) := List.get?_eq_get hvlt
      rcases hx : buf.get ⟨v, hvlt⟩ with _ | _ | _ | x
      all_goals rw [hx] at hgv
      · obtain ⟨b2, hb2⟩ := anyP_total buf (fun y => y == 2) nbrs (hnb v nbrs hnbv)
        cases b2 with
        | true =>
          obtain ⟨res, hres⟩ := ih buf htl hnb
          exact ⟨res, by simp only [fixGo, hnbv, hgv, hb2]; exact hres⟩
        | false =>
          cases hch : choose nbrs (pick v) with
          | none =>
            obtain ⟨res, hres⟩ := ih buf htl hnb
            exact ⟨res, by simp only [fixGo, hnbv, hgv, hb2, hch]; exact hres⟩
          | some u =>
            have hul : u < buf.length := hnb v nbrs hnbv u (choose_mem nbrs (pick v) u hch)
            obtain ⟨res, hres⟩ := ih (buf.set u 2)
              (fun w hw => by rw [List.length_set]; exact htl w hw)
              (fun v2 nbrs2 h2 u2 hu2 => by
                rw [List.length_set]; exact hnb v2 nbrs2 h2 u2 hu2)
            exact ⟨res, by
              simp only [fixGo, hnbv, hgv, hb2, hch, if_pos hul]; exact hres⟩
      · obtain ⟨b2, hb2⟩ := anyP_total buf (fun y => decide (0 < y)) nbrs (hnb v nbrs hnbv)
        cases b2 with
        | true =>
          obtain ⟨res, hres⟩ := ih buf htl hnb
          exact ⟨res, by simp only [fixGo, hnbv, hgv, hb2]; exact hres⟩
        | false =>
          cases hch : choose nbrs (pick v) with
          | none =>
            obtain ⟨res, hres⟩ := ih buf htl hnb
            exact ⟨res, by simp only [fixGo, hnbv, hgv, hb2, hch]; exact hres⟩
          | some u =>
            have hul : u < buf.length := hnb v nbrs hnbv u (choose_mem nbrs (pick v) u hch)
            obtain ⟨res, hres⟩ := ih (buf.set u 1)
              (fun w hw => by rw [List.length_set]; exact htl w hw)
              (fun v2 nbrs2 h2 u2 hu2 => by
                rw [List.length_set]; exact hnb v2 nbrs2 h2 u2 hu2)
            exact ⟨res, by
              simp only [fixGo, hnbv, hgv, hb2, hch, if_pos hul]; exact hres⟩
      · obtain ⟨b2, hb2⟩ := anyP_total buf (fun y => decide (0 < y)) nbrs (hnb v nbrs hnbv)
        cases b2 with
        | true =>
          obtain ⟨res, hres⟩ := ih buf htl hnb
          exact ⟨res, by simp only [fixGo, hnbv, hgv, hb2]; exact hres⟩
        | false =>
          cases hch : choose nbrs (pick v) with
          | none =>
            obtain ⟨res, hres⟩ := ih buf htl hnb
            exact ⟨res, by simp only [fixGo, hnbv, hgv, hb2, hch]; exact hres⟩
          | some u =>
            have hul : u < buf.length := hnb v nbrs hnbv u (choose_mem nbrs (pick v) u hch)
            obtain ⟨res, hres⟩ := ih (buf.set u 1)
              (fun w hw => by rw [List.length_set]; exact htl w hw)
              (fun v2 nbrs2 h2 u2 hu2 => by
                rw [List.length_set]; exact hnb v2 nbrs2 h2 u2 hu2)
            exact ⟨res, by
              simp only [fixGo, hnbv, hgv, hb2, hch, if_pos hul]; exact hres⟩
      · obtain ⟨res, hres⟩ := ih (buf.set v 0)
          (fun w hw => by rw [List.length_set]; exact htl w hw)
          (fun v2 nbrs2 h2 u2 hu2 => by
            rw [List.length_set]; exact hnb v2 nbrs2 h2 u2 hu2)
        exact ⟨res, by simp only [fixGo, hnbv, hgv]; exact hres⟩

/-- Helper: the max accumulator loop succeeds whenever every remaining key is
defined, and its result is the accumulator or one of the listed indices. -/
theorem bestGo_total (key : Nat → Option Nat) :
    ∀ (l : List Nat) (bi bf : Nat), (∀ i ∈ l, ∃ f, key i = some f) →
      ∃ b, bestGo key bi bf l = some b ∧ (b = bi ∨ b ∈ l) := by
  intro l
  induction l with
  | nil => intro bi bf _; exact ⟨bi, rfl, Or.inl rfl⟩
  | cons i rest ih =>
    intro bi bf hk
    obtain ⟨f, hf⟩ := hk i (List.mem_cons_self i rest)
    by_cases hle : bf ≤ f
    · obtain ⟨b, hb, hmem⟩ := ih i f (fun j hj => hk j (List.mem_cons_of_mem _ hj))
      refine ⟨b, ?_, ?_⟩
      · simp only [bestGo, hf]; rw [if_pos hle]; exact hb
      · rcases hmem with rfl | hm
        · exact Or.inr (List.mem_cons_self b rest)
        · exact Or.inr (List.mem_cons_of_mem _ hm)
    · obtain ⟨b, hb, hmem⟩ := ih bi bf (fun j hj => hk j (List.mem_cons_of_mem _ hj))
      refine ⟨b, ?_, ?_⟩
      · simp only [bestGo, hf]; rw [if_neg hle]; exact hb
      · rcases hmem with rfl | hm
        · exact Or.inl rfl
        · exact Or.inr (List.mem_cons_of_mem _ hm)

/-- Helper: max_by_key followed by unwrap succeeds on a nonempty index list
with defined keys, and the winner is one of the listed indices. -/
theorem bestIndex_total (key : Nat → Option Nat) (l : List Nat) (hne : l ≠ [])
    (hk : ∀ i ∈ l, ∃ f, key i = some f) :
    ∃ b, bestIndex key l = some b ∧ b ∈ l := by
  cases l with
  | nil => exact absurd rfl hne
  | cons i rest =>
    obtain ⟨f, hf⟩ := hk i (List.mem_cons_self i rest)
    obtain ⟨b, hb, hmem⟩ :=
      bestGo_total key rest i f (fun j hj => hk j (List.mem_cons_of_mem _ hj))
    refine ⟨b, ?_, ?_⟩
    · simp only [bestIndex, hf]; exact hb
    · rcases hmem with rfl | hm
      · exact List.mem_cons_self b rest
      · exact List.mem_cons_of_mem _ hm

/-- Helper: a tournament over a nonempty list of in-range indices succeeds. -/
theorem tournament_total (pop : List Chromosome) (indices : List Nat)
    (hne : indices ≠ []) (hb : ∀ i ∈ indices, i < pop.length) :
    ∃ c, tournament pop indices = some c := by
  have hk : ∀ i ∈ indices, ∃ f, popFitness pop i = some f := by
    intro i hi
    have hilt := hb i hi
    exact ⟨(pop.get ⟨i, hilt⟩).fitness, by
      rw [popFitness, List.get?_eq_get hilt]; rfl⟩
  obtain ⟨b, hbi, hbm⟩ := bestIndex_total (popFitness pop) indices hne hk
  have hblt : b < pop.length := hb b hbm
  exact ⟨pop.get ⟨b, hblt⟩, by
    simp only [tournament, hbi]; exact List.get?_eq_get hblt⟩

/-- Helper: the selection loop succeeds when every tournament does, and the
output has one individual per tournament. -/
theorem selectGo_total (pop : List Chromosome) (draws : Nat → List Nat) :
    ∀ ts, (∀ t ∈ ts, ∃ c, tournament pop (draws t) = some c) →
      ∃ out, selectGo pop draws ts = some out ∧ out.length = ts.length := by
  intro ts
  induction ts with
  | nil => intro _; exact ⟨[], rfl, rfl⟩
  | cons t ts ih =>
    intro h
    obtain ⟨c, hc⟩ := h t (List.mem_cons_self t ts)
    obtain ⟨out, hout, hlen⟩ := ih (fun t2 ht2 => h t2 (List.mem_cons_of_mem _ ht2))
    exact ⟨c :: out, by simp only [selectGo, hc, hout]; rfl, by simp [hlen]⟩

/-- Helper: tournament selection succeeds with an output of the population's
size whenever the tournament size is at least 1 and each tournament is
offered a random traversal order of all population indices. -/
theorem select_total_of (s : KTournamentSelection) (pop : List Chromosome)
    (orders : Nat → List Nat) (hk : 1 ≤ s.tournament_size)
    (hord : ∀ t, (orders t).Perm (List.range pop.length)) :
    ∃ out, s.select pop orders = some out ∧ out.length = pop.length := by
  have hdraw : ∀ t, ∀ i ∈ chooseMultiple (orders t) s.tournament_size,
      i < pop.length := by
    intro t i hi
    have hio : i ∈ orders t := List.mem_of_mem_take hi
    exact List.mem_range.mp ((hord t).mem_iff.mp hio)
  have hne : ∀ t ∈ List.range pop.length,
      chooseMultiple (orders t) s.tournament_size ≠ [] := by
    intro t ht
    have hp : 0 < pop.length := Nat.lt_of_le_of_lt (Nat.zero_le t) (List.mem_range.mp ht)
    have hlo : (orders t).length = pop.length :=
      (hord t).length_eq.trans (List.length_range pop.length)
    have hlt : (chooseMultiple (orders t) s.tournament_size).length =
        min s.tournament_size pop.length := by
      rw [chooseMultiple, List.length_take, hlo]
    rw [← List.length_pos, hlt]
    exact lt_min hk hp
  obtain ⟨out, hout, hlen⟩ := selectGo_total pop
    (fun t => chooseMultiple (orders t) s.tournament_size) (List.range pop.length)
    (fun t ht => tournament_total pop _ (hne t ht) (hdraw t))
  exact ⟨out, hout, hlen.trans (List.length_range pop.length)⟩

/-- C4 (amended): fitness evaluation, the validity check and the repair pass
abort on no input in which the gene sequence covers all vertex ids and every
successfully returned neighbour index stays within it, and tournament
selection aborts on no input with tournament_size at least 1; outside these
preconditions the operations can panic (see the counterexample). -/
theorem no_abort_amended (g : SimpleGraph) (c : Chromosome)
    (hlen : g.vertex_count ≤ c.genes.length)
    (hnb : ∀ v nbrs, g.neighbors v = some nbrs → ∀ u ∈ nbrs, u < c.genes.length) :
    (∃ b, c.is_valid_to_total_roman_domination g = some b) ∧
      (∀ pick, ∃ c2, c.fix_chromosome g pick = some c2) ∧
      (∀ (s : KTournamentSelection) (pop : List Chromosome) (orders : Nat → List Nat),
        1 ≤ s.tournament_size →
        (∀ t, (orders t).Perm (List.range pop.length)) →
        ∃ out, s.select pop orders = some out) := by
  refine ⟨?_, ?_, ?_⟩
  · exact validGo_total g c.genes (List.range g.vertex_count)
      (fun v hv => lt_of_lt_of_le (List.mem_range.mp hv) hlen) hnb
  · intro pick
    obtain ⟨res, hres⟩ := fixGo_total g pick (List.range g.vertex_count) c.genes
      (fun v hv => lt_of_lt_of_le (List.mem_range.mp hv) hlen) hnb
    exact ⟨Chromosome.new res, by rw [Chromosome.fix_chromosome, hres]; rfl⟩
  · intro s pop orders hk hord
    obtain ⟨out, hout, _⟩ := select_total_of s pop orders hk hord
    exact ⟨out, hout⟩

/-- Witness for C4 (amended) at the path graph and an in-bounds chromosome. -/
theorem no_abort_amended_witness :
    (∃ b, (Chromosome.new [1, 1]).is_valid_to_total_roman_domination pathG = some b) ∧
      (∀ pick, ∃ c2, (Chromosome.new [1, 1]).fix_chromosome pathG pick = some c2) ∧
      (∀ (s : KTournamentSelection) (pop : List Chromosome) (orders : Nat → List Nat),
        1 ≤ s.tournament_size →
        (∀ t, (orders t).Perm (List.range pop.length)) →
        ∃ out, s.select pop orders = some out) :=
  no_abort_amended pathG (Chromosome.new [1, 1]) (by decide)
    (by
      intro v nbrs h u hu
      simp only [pathG] at h
      split at h <;> injection h with h2 <;> subst h2 <;>
        simp only [List.mem_singleton] at hu <;> subst hu <;> decide)

/-- Helper: when the max accumulator loop returns a winner, either the
accumulator won and every listed key is strictly below its key, or the winner
splits the list so that earlier keys are at most its key and later keys are
strictly below it (the last-encountered maximum wins ties). -/
theorem bestGo_spec (key : Nat → Option Nat) :
    ∀ (l : List Nat) (bi bf b : Nat), bestGo key bi bf l = some b →
      (b = bi ∧ ∀ i ∈ l, ∃ f, key i = some f ∧ f < bf) ∨
      (∃ l₁ l₂ fb, l = l₁ ++ b :: l₂ ∧ key b = some fb ∧ bf ≤ fb ∧
        (∀ i ∈ l₁, ∃ f, key i = some f ∧ f ≤ fb) ∧
        (∀ i ∈ l₂, ∃ f, key i = some f ∧ f < fb)) := by
  intro l
  induction l with
  | nil =>
    intro bi bf b h
    rw [bestGo] at h
    cases h
    exact Or.inl ⟨rfl, by simp⟩
  | cons i rest ih =>
    intro bi bf b h
    cases hki : key i with
    | none =>
      simp only [bestGo, hki] at h
      exact Option.noConfusion h
    | some f =>
      simp only [bestGo, hki] at h
      by_cases hle : bf ≤ f
      · rw [if_pos hle] at h
        rcases ih i f b h with ⟨rfl, hall⟩ | ⟨l₁, l₂, fb, heq, hkb, hbf, hpre, hpost⟩
        · exact Or.inr ⟨[], rest, f, by simp, hki, hle, by simp, hall⟩
        · refine Or.inr ⟨i :: l₁, l₂, fb, by rw [heq]; rfl, hkb,
            le_trans hle hbf, ?_, hpost⟩
          intro j hj
          rcases List.mem_cons.mp hj with rfl | hj2
          · exact ⟨f, hki, hbf⟩
          · exact hpre j hj2
      · rw [if_neg hle] at h
        have hflt : f < bf := not_le.mp hle
        rcases ih bi bf b h with ⟨rfl, hall⟩ | ⟨l₁, l₂, fb, heq, hkb, hbf, hpre, hpost⟩
        · refine Or.inl ⟨rfl, ?_⟩
          intro j hj
          rcases List.mem_cons.mp hj with rfl | hj2
          · exact ⟨f, hki, hflt⟩
          · exact hall j hj2
        · refine Or.inr ⟨i :: l₁, l₂, fb, by rw [heq]; rfl, hkb, hbf, ?_, hpost⟩
          intro j hj
          rcases List.mem_cons.mp hj with rfl | hj2
          · exact ⟨f, hki, le_of_lt (lt_of_lt_of_le hflt hbf)⟩
          · exact hpre j hj2

/-- Helper: a successful max_by_key plus unwrap splits the index list around
the winner: earlier indices have keys at most the winner's key and later
indices have keys strictly below it. -/
theorem bestIndex_spec (key : Nat → Option Nat) :
    ∀ (l : List Nat) (b : Nat), bestIndex key l = some b →
      ∃ l₁ l₂ fb, l = l₁ ++ b :: l₂ ∧ key b = some fb ∧
        (∀ i ∈ l₁, ∃ f, key i = some f ∧ f ≤ fb) ∧
        (∀ i ∈ l₂, ∃ f, key i = some f ∧ f < fb) := by
  intro l b h
  cases l with
  | nil => exact Option.noConfusion h
  | cons i rest =>
    cases hki : key i with
    | none =>
      simp only [bestIndex, hki] at h
      exact Option.noConfusion h
    | some f =>
      simp only [bestIndex, hki] at h
      rcases bestGo_spec key rest i f b h with
        ⟨rfl, hall⟩ | ⟨l₁, l₂, fb, heq, hkb, hbf, hpre, hpost⟩
      · exact ⟨[], rest, f, rfl, hki, by simp, hall⟩
      · refine ⟨i :: l₁, l₂, fb, by rw [heq]; rfl, hkb, ?_, hpost⟩
        intro j hj
        rcases List.mem_cons.mp hj with rfl | hj2
        · exact ⟨f, hki, hbf⟩
        · exact hpre j hj2

/-- Helper: a successful selection loop produces one individual per loop
counter, each being the result of that counter's tournament. -/
theorem selectGo_spec (pop : List Chromosome) (draws : Nat → List Nat) :
    ∀ ts out, selectGo pop draws ts = some out →
      out.length = ts.length ∧
        ∀ j (hj : j < ts.length), ∃ c,
          tournament pop (draws (ts.get ⟨j, hj⟩)) = some c ∧ out.get? j = some c := by
  intro ts
  induction ts with
  | nil =>
    intro out h
    rw [selectGo] at h
    cases h
    exact ⟨rfl, fun j hj => absurd hj (by simp)⟩
  | cons t ts ih =>
    intro out h
    cases hc : tournament pop (draws t) with
    | none =>
      simp only [selectGo, hc] at h
      exact Option.noConfusion h
    | some c =>
      simp only [selectGo, hc] at h
      cases hrest : selectGo pop draws ts with
      | none =>
        rw [hrest] at h
        exact Option.noConfusion h
      | some out2 =>
        rw [hrest] at h
        have hout : out = c :: out2 := (Option.some.inj h).symm
        obtain ⟨hlen, hpt⟩ := ih out2 hrest
        subst hout
        refine ⟨by simp [hlen], ?_⟩
        intro j hj
        cases j with
        | zero => exact ⟨c, hc, rfl⟩
        | succ j =>
          have hj2 : j < ts.length := Nat.lt_of_succ_lt_succ hj
          obtain ⟨c2, hc2, hout2⟩ := hpt j hj2
          exact ⟨c2, hc2, hout2⟩

/-- C5: in every tournament of a successful selection, the individual written
to the output is the one at the winning drawn index; every index drawn before
it has fitness at most the winner's and every index drawn after it has
fitness strictly below the winner's, so the winner is a maximum and, among
equal maxima, the last-encountered one in the iteration order of the drawn
indices. -/
theorem tournament_picks_last_max (s : KTournamentSelection) (pop : List Chromosome)
    (orders : Nat → List Nat) (out : List Chromosome) (t : Nat)
    (hsel : s.select pop orders = some out) (ht : t < pop.length) :
    ∃ b c l₁ l₂, chooseMultiple (orders t) s.tournament_size = l₁ ++ b :: l₂ ∧
      pop.get? b = some c ∧ out.get? t = some c ∧
      (∀ i ∈ l₁, ∃ ci, pop.get? i = some ci ∧ ci.fitness ≤ c.fitness) ∧
      (∀ i ∈ l₂, ∃ ci, pop.get? i = some ci ∧ ci.fitness < c.fitness) := by
  have hspec := selectGo_spec pop
    (fun t2 => chooseMultiple (orders t2) s.tournament_size)
    (List.range pop.length) out hsel
  have htr : t < (List.range pop.length).length := by
    rw [List.length_range]; exact ht
  obtain ⟨c, hc, hout⟩ := hspec.2 t htr
  have hgetr : (List.range pop.length).get ⟨t, htr⟩ = t := List.get_range t htr
  rw [hgetr] at hc
  cases hbi : bestIndex (popFitness pop)
      (chooseMultiple (orders t) s.tournament_size) with
  | none =>
    simp only [tournament, hbi] at hc
    exact Option.noConfusion hc
  | some b =>
    simp only [tournament, hbi] at hc
    obtain ⟨l₁, l₂, fb, heq, hkb, hpre, hpost⟩ := bestIndex_spec (popFitness pop) _ b hbi
    have hcf : c.fitness = fb := by
      simp only [popFitness, hc] at hkb
      exact Option.some.inj hkb
    refine ⟨b, c, l₁, l₂, heq, hc, hout, ?_, ?_⟩
    · intro i hi
      obtain ⟨f, hf, hle⟩ := hpre i hi
      cases hgi : pop.get? i with
      | none =>
        simp only [popFitness, hgi] at hf
        exact Option.noConfusion hf
      | some ci =>
        simp only [popFitness, hgi] at hf
        have hfi : ci.fitness = f := Option.some.inj hf
        exact ⟨ci, rfl, by rw [hfi, hcf]; exact hle⟩
    · intro i hi
      obtain ⟨f, hf, hlt⟩ := hpost i hi
      cases hgi : pop.get? i with
      | none =>
        simp only [popFitness, hgi] at hf
        exact Option.noConfusion hf
      | some ci =>
        simp only [popFitness, hgi] at hf
        have hfi : ci.fitness = f := Option.some.inj hf
        exact ⟨ci, rfl, by rw [hfi, hcf]; exact hlt⟩

/-- Witness for C5 at a concrete two-individual population with tournament
size 2: the fitter individual at index 1 wins the first tournament. -/
theorem tournament_picks_last_max_witness :
    ∃ b c l₁ l₂,
      chooseMultiple (orders01 0) (2 : Nat) = l₁ ++ b :: l₂ ∧
        pop2.get? b = some c ∧
        ([Chromosome.new [2], Chromosome.new [2]] : List Chromosome).get? 0 = some c ∧
        (∀ i ∈ l₁, ∃ ci, pop2.get? i = some ci ∧ ci.fitness ≤ c.fitness) ∧
        (∀ i ∈ l₂, ∃ ci, pop2.get? i = some ci ∧ ci.fitness < c.fitness) :=
  tournament_picks_last_max ⟨2⟩ pop2 orders01
    [Chromosome.new [2], Chromosome.new [2]] 0 (by decide) (by decide)

/-- C8: for a tournament size between 1 and the population size, selection
succeeds and the selected population has exactly the size of the input
population. -/
theorem select_preserves_size (s : KTournamentSelection) (pop : List Chromosome)
    (orders : Nat → List Nat) (h1 : 1 ≤ s.tournament_size)
    (h2 : s.tournament_size ≤ pop.length)
    (hord : ∀ t, (orders t).Perm (List.range pop.length)) :
    ∃ out, s.select pop orders = some out ∧ out.length = pop.length :=
  select_total_of s pop orders h1 hord

/-- Witness for C8 with tournament size 1 on a two-individual population. -/
theorem select_preserves_size_witness :
    ∃ out, KTournamentSelection.select ⟨1⟩ pop2 orders01 = some out ∧
      out.length = pop2.length :=
  select_preserves_size ⟨1⟩ pop2 orders01 (by decide) (by decide)
    (fun t => by show List.Perm [0, 1] (List.range 2); decide)

/-- C10: when the tournament size exceeds the population size of a nonempty
population, selection does not fail: each tournament's draw is silently
capped to all population indices (it has the population's length, is without
repetition, and contains every index), and the output still has exactly the
population's size. -/
theorem select_caps_oversized_tournament (s : KTournamentSelection)
    (pop : List Chromosome) (orders : Nat → List Nat) (hp : 1 ≤ pop.length)
    (hk : pop.length < s.tournament_size)
    (hord : ∀ t, (orders t).Perm (List.range pop.length)) :
    (∀ t, (chooseMultiple (orders t) s.tournament_size).length = pop.length ∧
      (chooseMultiple (orders t) s.tournament_size).Nodup ∧
      ∀ i, i < pop.length → i ∈ chooseMultiple (orders t) s.tournament_size) ∧
      ∃ out, s.select pop orders = some out ∧ out.length = pop.length := by
  have htake : ∀ t, chooseMultiple (orders t) s.tournament_size = orders t := by
    intro t
    rw [chooseMultiple]
    apply List.take_of_length_le
    rw [(hord t).length_eq, List.length_range]
    omega
  refine ⟨?_, select_total_of s pop orders (by omega) hord⟩
  intro t
  rw [htake t]
  refine ⟨(hord t).length_eq.trans (List.length_range _), ?_, ?_⟩
  · exact ((hord t).nodup_iff).mpr (List.nodup_range _)
  · intro i hi
    exact (hord t).mem_iff.mpr (List.mem_range.mpr hi)

/-- Witness for C10 with tournament size 5 on a one-individual population. -/
theorem select_caps_oversized_tournament_witness :
    (∀ t, (chooseMultiple (orders0 t) (5 : Nat)).length = pop1.length ∧
      (chooseMultiple (orders0 t) (5 : Nat)).Nodup ∧
      ∀ i, i < pop1.length → i ∈ chooseMultiple (orders0 t) (5 : Nat)) ∧
      ∃ out, KTournamentSelection.select ⟨5⟩ pop1 orders0 = some out ∧
        out.length = pop1.length :=
  select_caps_oversized_tournament ⟨5⟩ pop1 orders0 (by decide) (by decide)
    (fun t => by show List.Perm [0] (List.range 1); decide)

end CLTotalRDGA
